import Mathlib

/-!
Verification of `unitig_flipper` (src/main.rs) against its specification.

The Rust program is shallowly embedded: byte sequences are `List Nat`
(A = 65, C = 67, G = 71, T = 84), the `HashMap` border index is an
association list (key order is never observed by the program, only
`get`-style lookups are performed), and every Rust panic (invalid
character, out-of-range slice, out-of-range index) is modelled as an
`Option` returning `none`.
-/

set_option maxHeartbeats 1000000

namespace UnitigFlipper

/-- `Orientation` from main.rs: a unitig is laid out as its forward
sequence or as its reverse complement. -/
inductive Orientation where
  | Forward
  | Reverse
  deriving DecidableEq

/-- `Orientation::flip` from main.rs. -/
def Orientation.flip : Orientation → Orientation
  | .Forward => .Reverse
  | .Reverse => .Forward

/-- `Position` from main.rs: whether a boundary (k-1)-mer is the first or
the last (k-1) characters of a unitig. -/
inductive Position where
  | Start
  | End
  deriving DecidableEq

/-- `Edge` from main.rs. The Rust fields `from` and `to` collide with Lean
tokens, hence the quoted names. -/
structure Edge where
  «from» : Nat
  «to» : Nat
  from_orientation : Orientation
  to_orientation : Orientation
  deriving DecidableEq

/-- `MapValue` from main.rs: one border-index entry. -/
structure MapValue where
  unitig_id : Nat
  position : Position
  deriving DecidableEq

/-- `rc` from main.rs on a single byte. The Rust function panics on a byte
outside A/C/G/T; the panic is modelled as `none`. -/
def rc (c : Nat) : Option Nat :=
  if c = 65 then some 84
  else if c = 84 then some 65
  else if c = 71 then some 67
  else if c = 67 then some 71
  else none

/-- Mapping `rc` over a byte list, propagating the panic
(`.iter().map(|&c| rc(c)).collect()` after a `rev()` has been applied). -/
def mapRc : List Nat → Option (List Nat)
  | [] => some []
  | c :: cs =>
    match rc c, mapRc cs with
    | some c2, some cs2 => some (c2 :: cs2)
    | _, _ => none

/-- `seq.iter().rev().map(|&c| rc(c)).collect()` from main.rs: the reverse
complement of a whole sequence. -/
def rcSeq (s : List Nat) : Option (List Nat) := mapRc s.reverse

/-- Rust `usize` subtraction: underflow aborts (in the source it either
panics directly or wraps to a huge value that makes the following slice
panic), modelled as `none`. -/
def sub? (a b : Nat) : Option Nat := if b ≤ a then some (a - b) else none

/-- Rust slice `&s[a..b]`: panics unless `a ≤ b ≤ s.len()`, modelled as
`none`. -/
def slice? (s : List Nat) (a b : Nat) : Option (List Nat) :=
  if a ≤ b ∧ b ≤ s.length then some ((s.drop a).take (b - a)) else none

/-- `&unitig.seq[..k-1]` from main.rs: the first k-1 bytes. -/
def firstKmer (seq : List Nat) (k : Nat) : Option (List Nat) := do
  let e ← sub? k 1
  slice? seq 0 e

/-- `&unitig.seq[unitig.seq.len()-(k-1)..]` from main.rs: the last k-1
bytes. -/
def lastKmer (seq : List Nat) (k : Nat) : Option (List Nat) := do
  let e ← sub? k 1
  let a ← sub? seq.length e
  slice? seq a seq.length

/-- The border index `HashMap<Vec<u8>, Vec<MapValue>>`, embedded as an
association list: the program only ever queries it by key, never
iterates it, so the bucket order is unobservable. -/
abbrev Borders : Type := List (List Nat × List MapValue)

/-- `HashMap::get` on the border index. -/
def lookup : Borders → List Nat → Option (List MapValue)
  | [], _ => none
  | (k0, vs) :: rest, key => if k0 = key then some vs else lookup rest key

/-- `insert_if_not_present` from main.rs. -/
def insert_if_not_present (m : Borders) (key : List Nat) : Borders :=
  match lookup m key with
  | some _ => m
  | none => m ++ [(key, [])]

/-- `borders.get_mut(key).unwrap().push(v)` from main.rs.  In the source
the key is always present (it was inserted on the preceding line), so the
`unwrap` never fires; an absent key is a no-op here. -/
def push_to_key : Borders → List Nat → MapValue → Borders
  | [], _, _ => []
  | (k0, vs) :: rest, key, v =>
    if k0 = key then (k0, vs ++ [v]) :: rest else (k0, vs) :: push_to_key rest key v

/-- The border-building loop of `build_dbg` (main.rs lines 81-103): for
unitig `i` insert the key of its first k-1 bytes and the key of its last
k-1 bytes, then push `(i, Start)` under the former and `(i, End)` under
the latter.  A too-short unitig makes the slices panic (`none`). -/
def buildBordersAux (k : Nat) : List (List Nat) → Nat → Borders → Option Borders
  | [], _, m => some m
  | seq :: rest, i, m =>
    match firstKmer seq k, lastKmer seq k with
    | some first, some last =>
      buildBordersAux k rest (i + 1)
        (push_to_key
          (push_to_key (insert_if_not_present (insert_if_not_present m first) last)
            first ⟨i, Position.Start⟩)
          last ⟨i, Position.End⟩)
    | _, _ => none

/-- `push_edges` from main.rs: look up the linking k-mer; for every entry
at the required position append an edge to `edges[from]`.  Appending the
whole filtered list at once equals the per-entry pushes of the source; `from`
is always in bounds at every call site (`from = i < n = edges.len()`). -/
def push_edges («from» : Nat) (from_orientation to_orientation : Orientation)
    (to_position : Position) (linking_kmer : List Nat)
    (edges : List (List Edge)) (borders : Borders) : List (List Edge) :=
  match lookup borders linking_kmer with
  | none => edges
  | some vec =>
    edges.set «from» (edges.getD «from» [] ++
      (vec.filter (fun x => x.position == to_position)).map
        (fun x => ⟨«from», x.unitig_id, from_orientation, to_orientation⟩))

/-- The four `push_edges` calls of the edge-building loop body
(main.rs lines 124-127), in source order. -/
def push4 (borders : Borders) (i : Nat) (first last first_rc last_rc : List Nat)
    (edges : List (List Edge)) : List (List Edge) :=
  push_edges i .Reverse .Forward .Start first_rc
    (push_edges i .Reverse .Reverse .End first
      (push_edges i .Forward .Reverse .End last_rc
        (push_edges i .Forward .Forward .Start last edges borders)
        borders)
      borders)
    borders

/-- The edge-building loop of `build_dbg` (main.rs lines 109-129): for
unitig `i` compute its reverse complement (panics on an invalid byte),
its `first`/`last` boundary k-mers and their reverse complements, and
perform the four `push_edges` queries in source order. -/
def buildEdgesAux (k : Nat) (borders : Borders) :
    List (List Nat) → Nat → List (List Edge) → Option (List (List Edge))
  | [], _, edges => some edges
  | seq :: rest, i, edges =>
    match rcSeq seq, firstKmer seq k, lastKmer seq k with
    | some rcs, some first, some last =>
      match lastKmer rcs k, firstKmer rcs k with
      | some first_rc, some last_rc =>
        buildEdgesAux k borders rest (i + 1)
          (push4 borders i first last first_rc last_rc edges)
      | _, _ => none
    | _, _, _ => none

/-- `DBG` from main.rs. -/
structure DBG where
  unitigs : List (List Nat)
  edges : List (List Edge)
  deriving DecidableEq

/-- `build_dbg` from main.rs: build the border index, then the edge
lists (one list per unitig id, preallocated to length n). -/
def build_dbg (unitigs : List (List Nat)) (k : Nat) : Option DBG :=
  match buildBordersAux k unitigs 0 [] with
  | none => none
  | some borders =>
    match buildEdgesAux k borders unitigs 0 (List.replicate unitigs.length []) with
    | none => none
    | some edges => some ⟨unitigs, edges⟩

/-- The `next_orientation` match of `pick_orientations` (main.rs lines
163-168). -/
def propagate (orientation : Orientation) : Orientation → Orientation → Orientation
  | .Forward, .Forward => orientation
  | .Forward, .Reverse => orientation.flip
  | .Reverse, .Forward => orientation.flip
  | .Reverse, .Reverse => orientation

/-- Number of `false` entries of the visited array (termination measure of
the DFS: each non-discarded pop turns one `false` into `true`). -/
def countFalse : List Bool → Nat
  | [] => 0
  | b :: rest => (if b then 0 else 1) + countFalse rest

/-- An upper bound on the out-degree of any unitig (termination measure
ingredient). -/
def maxOut (edges : List (List Edge)) : Nat :=
  edges.foldr (fun l m => max l.length m) 0

theorem length_le_maxOut : ∀ {edges : List (List Edge)} {l : List Edge},
    l ∈ edges → l.length ≤ maxOut edges := by
  intro edges
  induction edges with
  | nil => intro l h; cases h
  | cons hd tl ih =>
    intro l h
    rcases List.mem_cons.mp h with h | h
    · subst h; simp [maxOut]
    · exact le_trans (ih h) (le_max_right _ _)

theorem getElem?_mem_list {α : Type} {l : List α} {i : Nat} {a : α}
    (h : l[i]? = some a) : a ∈ l := by
  induction l generalizing i with
  | nil => simp at h
  | cons hd tl ih =>
    cases i with
    | zero =>
      simp only [List.getElem?_cons_zero, Option.some.injEq] at h
      exact h ▸ List.mem_cons_self hd tl
    | succ j =>
      simp only [List.getElem?_cons_succ] at h
      exact List.mem_cons_of_mem _ (ih h)

theorem le_maxOut {edges : List (List Edge)} {u : Nat} {outs : List Edge}
    (h : edges[u]? = some outs) : outs.length ≤ maxOut edges :=
  length_le_maxOut (getElem?_mem_list h)

theorem countFalse_set {l : List Bool} {u : Nat}
    (h : l[u]? = some false) : countFalse (l.set u true) < countFalse l := by
  induction l generalizing u with
  | nil => simp at h
  | cons hd tl ih =>
    cases u with
    | zero =>
      simp only [List.getElem?_cons_zero, Option.some.injEq] at h
      subst h
      simp [countFalse, List.set]
    | succ j =>
      simp only [List.getElem?_cons_succ] at h
      have := ih h
      simp only [List.set, countFalse]
      omega

theorem foldl_cons_push {α β : Type} (g : α → β) :
    ∀ (outs : List α) (stack : List β),
      outs.foldl (fun st e => g e :: st) stack = (outs.map g).reverse ++ stack := by
  intro outs
  induction outs with
  | nil => intro stack; simp
  | cons hd tl ih =>
    intro stack
    simp only [List.foldl_cons, List.map_cons, List.reverse_cons, ih]
    simp

/-- The DFS `while let Some((unitig_id, orientation)) = stack.pop()` loop
of `pick_orientations` (main.rs lines 153-171).  `visited[unitig_id]`,
`orientations[unitig_id]` and `dbg.edges[unitig_id]` are Rust index
operations that panic when out of range, modelled as `none`. -/
def dfsLoop (edges : List (List Edge)) (stack : List (Nat × Orientation))
    (visited : List Bool) (orientations : List Orientation) :
    Option (List Bool × List Orientation) :=
  match stack with
  | [] => some (visited, orientations)
  | (unitig_id, orientation) :: rest =>
    match hv : visited[unitig_id]? with
    | none => none
    | some true => dfsLoop edges rest visited orientations
    | some false =>
      if unitig_id < orientations.length then
        match he : edges[unitig_id]? with
        | none => none
        | some outs =>
          dfsLoop edges
            (outs.foldl
              (fun st e => (e.«to», propagate orientation e.from_orientation e.to_orientation) :: st)
              rest)
            (visited.set unitig_id true)
            (orientations.set unitig_id orientation)
      else none
termination_by countFalse visited * (maxOut edges + 1) + stack.length
decreasing_by
  · simp only [List.length_cons]
    omega
  · have h1 : countFalse (visited.set unitig_id true) + 1 ≤ countFalse visited :=
      countFalse_set hv
    have h2 : (outs.foldl
        (fun st e => (e.«to», propagate orientation e.from_orientation e.to_orientation) :: st)
        rest).length = outs.length + rest.length := by
      rw [foldl_cons_push]
      simp
    have h3 : outs.length ≤ maxOut edges := le_maxOut he
    have h4 := Nat.mul_le_mul_right (maxOut edges + 1) h1
    rw [Nat.add_mul, Nat.one_mul] at h4
    rw [h2]
    simp only [List.length_cons]
    linarith

/-- The outer `for component_root in 0..n` loop of `pick_orientations`
(main.rs lines 142-173), over an explicit list of roots. -/
def outer (edges : List (List Edge)) :
    List Nat → List Bool → List Orientation → Option (List Bool × List Orientation)
  | [], visited, orientations => some (visited, orientations)
  | root :: roots, visited, orientations =>
    match visited[root]? with
    | none => none
    | some true => outer edges roots visited orientations
    | some false =>
      match dfsLoop edges [(root, Orientation.Forward)] visited orientations with
      | none => none
      | some (v, o) => outer edges roots v o

/-- `pick_orientations` from main.rs: all orientations start Forward, all
ids start unvisited, roots are tried in ascending order. -/
def pick_orientations (dbg : DBG) : Option (List Orientation) :=
  (outer dbg.edges (List.range dbg.unitigs.length)
    (List.replicate dbg.unitigs.length false)
    (List.replicate dbg.unitigs.length Orientation.Forward)).map Prod.snd

/-- The output loop of `main` (main.rs lines 191-202): emit the sequence of
each unitig as-is if oriented Forward, else its reverse complement. -/
def emit (dbg : DBG) (orientations : List Orientation) : Option (List (List Nat)) :=
  (List.range dbg.unitigs.length).mapM fun i => do
    let seq ← dbg.unitigs[i]?
    let o ← orientations[i]?
    match o with
    | Orientation.Forward => some seq
    | Orientation.Reverse => rcSeq seq

/-! ## Properties of the reverse complement -/

theorem rc_none_iff (c : Nat) :
    rc c = none ↔ ¬(c = 65 ∨ c = 67 ∨ c = 71 ∨ c = 84) := by
  unfold rc
  split_ifs with h1 h2 h3 h4 <;> simp_all

theorem rc_invol {b b2 : Nat} (h : rc b = some b2) : rc b2 = some b := by
  unfold rc at h ⊢
  split_ifs at h with h1 h2 h3 h4 <;>
    (injection h with h; subst h; subst_vars; simp)

theorem mapRc_none_iff (l : List Nat) :
    mapRc l = none ↔ ∃ c ∈ l, rc c = none := by
  induction l with
  | nil => simp [mapRc]
  | cons c cs ih =>
    cases hc : rc c with
    | none => simp [mapRc, hc]
    | some c2 =>
      cases hm : mapRc cs with
      | none => simp [mapRc, hc, hm, ← ih, hm]
      | some cs2 =>
        simp only [mapRc, hc, hm]
        constructor
        · intro h; cases h
        · rintro ⟨x, hx, hrc⟩
          rcases List.mem_cons.mp hx with rfl | hx
          · rw [hc] at hrc; cases hrc
          · have : mapRc cs = none := (ih).mpr ⟨x, hx, hrc⟩
            rw [hm] at this; cases this

theorem mapRc_invol : ∀ {l r : List Nat}, mapRc l = some r → mapRc r = some l := by
  intro l
  induction l with
  | nil =>
    intro r h
    simp only [mapRc, Option.some.injEq] at h
    subst h; rfl
  | cons c cs ih =>
    intro r h
    simp only [mapRc] at h
    cases hc : rc c with
    | none => rw [hc] at h; cases h
    | some c2 =>
      cases hm : mapRc cs with
      | none => rw [hc, hm] at h; cases h
      | some cs2 =>
        rw [hc, hm] at h
        injection h with h
        subst h
        simp only [mapRc, rc_invol hc, ih hm]

theorem mapRc_append {l1 l2 r1 r2 : List Nat}
    (h1 : mapRc l1 = some r1) (h2 : mapRc l2 = some r2) :
    mapRc (l1 ++ l2) = some (r1 ++ r2) := by
  induction l1 generalizing r1 with
  | nil =>
    simp only [mapRc, Option.some.injEq] at h1
    subst h1; simpa using h2
  | cons c cs ih =>
    simp only [mapRc] at h1
    cases hc : rc c with
    | none => rw [hc] at h1; cases h1
    | some c2 =>
      cases hm : mapRc cs with
      | none => rw [hc, hm] at h1; cases h1
      | some cs2 =>
        rw [hc, hm] at h1
        injection h1 with h1
        subst h1
        simp only [List.cons_append, mapRc, hc, List.append_eq]
        rw [ih hm]

theorem mapRc_reverse : ∀ {l r : List Nat}, mapRc l = some r →
    mapRc l.reverse = some r.reverse := by
  intro l
  induction l with
  | nil =>
    intro r h
    simp only [mapRc, Option.some.injEq] at h
    subst h; rfl
  | cons c cs ih =>
    intro r h
    simp only [mapRc] at h
    cases hc : rc c with
    | none => rw [hc] at h; cases h
    | some c2 =>
      cases hm : mapRc cs with
      | none => rw [hc, hm] at h; cases h
      | some cs2 =>
        rw [hc, hm] at h
        injection h with h
        subst h
        have hsingle : mapRc [c] = some [c2] := by simp [mapRc, hc]
        simpa using mapRc_append (ih hm) hsingle

/-- C6: reverse-complement computation aborts (returns `none`, modelling the
Rust panic) on a byte if and only if the byte is outside {A,C,G,T}
(= {65,67,71,84}); a whole-sequence reverse complement aborts if and only
if some byte of the sequence is outside {A,C,G,T}. -/
theorem rc_aborts_iff_invalid_byte :
    (∀ c : Nat, rc c = none ↔ ¬(c = 65 ∨ c = 67 ∨ c = 71 ∨ c = 84)) ∧
    (∀ s : List Nat, rcSeq s = none ↔ ∃ c ∈ s, ¬(c = 65 ∨ c = 67 ∨ c = 71 ∨ c = 84)) := by
  constructor
  · exact rc_none_iff
  · intro s
    unfold rcSeq
    rw [mapRc_none_iff]
    constructor
    · rintro ⟨c, hc, hrc⟩
      exact ⟨c, List.mem_reverse.mp hc, (rc_none_iff c).mp hrc⟩
    · rintro ⟨c, hc, hbad⟩
      exact ⟨c, List.mem_reverse.mpr hc, (rc_none_iff c).mpr hbad⟩

/-- C7: complementing a base twice gives the base back, and
reverse-complementing a sequence twice gives the sequence back (stated on
the `Option`-valued embedding: whenever the first application succeeds, the
second succeeds and returns the original input). -/
theorem rc_involution :
    (∀ b b2 : Nat, rc b = some b2 → rc b2 = some b) ∧
    (∀ s t : List Nat, rcSeq s = some t → rcSeq t = some s) := by
  constructor
  · intro b b2 h; exact rc_invol h
  · intro s t h
    unfold rcSeq at h ⊢
    have h1 : mapRc t = some s.reverse := mapRc_invol h
    have h2 : mapRc t.reverse = some s.reverse.reverse := mapRc_reverse h1
    simpa using h2

/-- Witness for C7 at concrete inputs: rc(A) = T with rc(T) = A, and
rcSeq(ACG) = CGT with rcSeq(CGT) = ACG. -/
theorem rc_involution_witness :
    rc 84 = some 65 ∧ rcSeq [67, 71, 84] = some [65, 67, 71] := by
  refine ⟨rc_involution.1 65 84 (by decide), rc_involution.2 [65, 67, 71] [67, 71, 84] (by decide)⟩

/-- C5 (code defect): on an input holding a unitig shorter than k-1
characters (here the 2-character unitig "AC" with k = 4), `build_dbg`
panics on an out-of-range slice — modelled as `none` — instead of
reporting a named input-validation error as the specification requires. -/
theorem build_dbg_undersized_panics : build_dbg [[65, 67]] 4 = none := by decide

/-! ## Characterization of the border index -/

theorem lookup_append (m1 m2 : Borders) (w : List Nat) :
    lookup (m1 ++ m2) w =
      match lookup m1 w with
      | some vs => some vs
      | none => lookup m2 w := by
  induction m1 with
  | nil => simp [lookup]
  | cons p rest ih =>
    obtain ⟨k0, vs⟩ := p
    by_cases h : k0 = w <;> simp [lookup, h, ih]

theorem lookup_iinp (m : Borders) (key w : List Nat) :
    lookup (insert_if_not_present m key) w =
      if w = key then some ((lookup m key).getD []) else lookup m w := by
  unfold insert_if_not_present
  cases hk : lookup m key with
  | some vs =>
    by_cases hw : w = key
    · subst hw; simp [hk]
    · simp [hw]
  | none =>
    rw [lookup_append]
    by_cases hw : w = key
    · subst hw; simp [hk, lookup]
    · cases hlw : lookup m w with
      | some vs => simp [hlw, hw]
      | none => simp [hlw, hw, lookup, Ne.symm hw]

theorem lookup_push (m : Borders) (key w : List Nat) (v : MapValue) :
    lookup (push_to_key m key v) w =
      if w = key then (lookup m key).map (fun vs => vs ++ [v]) else lookup m w := by
  induction m with
  | nil => by_cases hw : w = key <;> simp [push_to_key, lookup, hw]
  | cons p rest ih =>
    obtain ⟨k0, vs⟩ := p
    by_cases h0 : k0 = key
    · subst h0
      by_cases hw : w = k0
      · subst hw; simp [push_to_key, lookup]
      · simp [push_to_key, lookup, Ne.symm hw, hw]
    · by_cases hw : w = k0
      · subst hw
        simp [push_to_key, lookup, h0, Ne.symm h0]
      · simp [push_to_key, lookup, h0, Ne.symm hw, ih]

/-- Optional append: the shape a border-index bucket takes after appending
a batch of entries (`none` = key absent). -/
def oapp : Option (List MapValue) → List MapValue → Option (List MapValue)
  | none, l => if l = [] then none else some l
  | some xs, l => some (xs ++ l)

theorem oapp_nil (o : Option (List MapValue)) : oapp o [] = o := by
  cases o <;> simp [oapp]

theorem oapp_append (o : Option (List MapValue)) (l1 l2 : List MapValue) :
    oapp (oapp o l1) l2 = oapp o (l1 ++ l2) := by
  cases o with
  | some xs => simp [oapp]
  | none =>
    cases l1 with
    | nil => simp [oapp]
    | cons a t =>
      cases l2 with
      | nil => simp [oapp]
      | cons b u => simp [oapp]

/-- The entries the border-building loop contributes under key `w` while
processing the unitig list `us`, the first element having id `i`:
ascending id, and per unitig the Start entry (under its first k-1-mer)
before the End entry (under its last k-1-mer). -/
def borderEntriesFrom (k : Nat) (w : List Nat) : List (List Nat) → Nat → List MapValue
  | [], _ => []
  | seq :: rest, i =>
    (if firstKmer seq k = some w then [⟨i, Position.Start⟩] else []) ++
    (if lastKmer seq k = some w then [⟨i, Position.End⟩] else []) ++
    borderEntriesFrom k w rest (i + 1)

theorem lookup_addUnitig (m : Borders) (first last : List Nat) (i : Nat) (w : List Nat) :
    lookup (push_to_key
        (push_to_key (insert_if_not_present (insert_if_not_present m first) last)
          first ⟨i, Position.Start⟩)
        last ⟨i, Position.End⟩) w =
      oapp (lookup m w)
        ((if first = w then [⟨i, Position.Start⟩] else []) ++
          (if last = w then [⟨i, Position.End⟩] else [])) := by
  simp only [lookup_push, lookup_iinp]
  by_cases hwf : w = first
  · subst hwf
    by_cases hwl : w = last
    · subst hwl
      cases hmw : lookup m w <;> simp [oapp, hmw, List.append_assoc]
    · have h1 : ¬last = w := fun h => hwl h.symm
      cases hmw : lookup m w <;> simp [oapp, hmw, hwl, h1, List.append_assoc]
  · by_cases hwl : w = last
    · subst hwl
      have h1 : ¬first = w := fun h => hwf h.symm
      cases hmw : lookup m w <;> simp [oapp, hmw, hwf, h1, List.append_assoc]
    · have h1 : ¬first = w := fun h => hwf h.symm
      have h2 : ¬last = w := fun h => hwl h.symm
      cases hmw : lookup m w <;> simp [oapp, hmw, hwf, hwl, h1, h2]

theorem buildBordersAux_lookup (k : Nat) :
    ∀ (rest : List (List Nat)) (i : Nat) (m0 m : Borders),
      buildBordersAux k rest i m0 = some m →
      ∀ w, lookup m w = oapp (lookup m0 w) (borderEntriesFrom k w rest i) := by
  intro rest
  induction rest with
  | nil =>
    intro i m0 m h w
    obtain rfl : m0 = m := by simpa [buildBordersAux] using h
    simp [borderEntriesFrom, oapp_nil]
  | cons seq rest ih =>
    intro i m0 m h w
    simp only [buildBordersAux] at h
    cases hf : firstKmer seq k with
    | none => rw [hf] at h; cases h
    | some first =>
      cases hl : lastKmer seq k with
      | none => rw [hf, hl] at h; cases h
      | some last =>
        rw [hf, hl] at h
        have hrec := ih (i + 1) _ m h w
        rw [hrec, lookup_addUnitig, oapp_append]
        simp only [borderEntriesFrom, hf, hl, Option.some.injEq, List.append_assoc]

theorem mem_borderEntriesFrom (k : Nat) (w : List Nat) :
    ∀ (us : List (List Nat)) (i0 t : Nat) (seq : List Nat),
      us[t]? = some seq →
      (firstKmer seq k = some w →
        (⟨i0 + t, Position.Start⟩ : MapValue) ∈ borderEntriesFrom k w us i0) ∧
      (lastKmer seq k = some w →
        (⟨i0 + t, Position.End⟩ : MapValue) ∈ borderEntriesFrom k w us i0) := by
  intro us
  induction us with
  | nil => intro i0 t seq h; simp at h
  | cons hd tl ih =>
    intro i0 t seq h
    cases t with
    | zero =>
      simp only [List.getElem?_cons_zero, Option.some.injEq] at h
      subst h
      constructor
      · intro hf
        simp [borderEntriesFrom, hf]
      · intro hl
        simp [borderEntriesFrom, hl]
    | succ t =>
      simp only [List.getElem?_cons_succ] at h
      have := ih (i0 + 1) t seq h
      have harith : i0 + 1 + t = i0 + (t + 1) := by omega
      rw [harith] at this
      constructor
      · intro hf
        simp only [borderEntriesFrom]
        exact List.mem_append_right _ (this.1 hf)
      · intro hl
        simp only [borderEntriesFrom]
        exact List.mem_append_right _ (this.2 hl)

theorem borderEntriesFrom_id_lt (k : Nat) (w : List Nat) :
    ∀ (us : List (List Nat)) (i0 : Nat) (x : MapValue),
      x ∈ borderEntriesFrom k w us i0 → x.unitig_id < i0 + us.length := by
  intro us
  induction us with
  | nil => intro i0 x h; simp [borderEntriesFrom] at h
  | cons hd tl ih =>
    intro i0 x h
    simp only [borderEntriesFrom, List.mem_append] at h
    rcases h with (h | h) | h
    · split_ifs at h with hc
      · rcases List.mem_singleton.mp h with rfl
        simp
      · cases h
    · split_ifs at h with hc
      · rcases List.mem_singleton.mp h with rfl
        simp
      · cases h
    · have := ih (i0 + 1) x h
      simp only [List.length_cons]
      omega

theorem border_lookup_spec (unitigs : List (List Nat)) (k : Nat) (m : Borders)
    (hm : buildBordersAux k unitigs 0 [] = some m) (w : List Nat) :
    lookup m w =
      if borderEntriesFrom k w unitigs 0 = [] then none
      else some (borderEntriesFrom k w unitigs 0) := by
  have := buildBordersAux_lookup k unitigs 0 [] m hm w
  simpa [lookup, oapp] using this

/-- C4: the border index built by `build_dbg` maps every key `w` to
exactly the insertion-ordered entry list `borderEntriesFrom k w unitigs 0`
(ascending unitig id, Start before End per unitig, no deduplication), with
the key present iff that list is non-empty; in particular a unitig whose
first k-1 bytes equal its last k-1 bytes contributes both its Start and
its End entry under that single key. -/
theorem border_index_characterization (unitigs : List (List Nat)) (k : Nat) (m : Borders)
    (hm : buildBordersAux k unitigs 0 [] = some m) :
    (∀ w, lookup m w =
      if borderEntriesFrom k w unitigs 0 = [] then none
      else some (borderEntriesFrom k w unitigs 0)) ∧
    (∀ i seq w, unitigs[i]? = some seq →
      firstKmer seq k = some w → lastKmer seq k = some w →
      ∃ l, lookup m w = some l ∧ ⟨i, Position.Start⟩ ∈ l ∧ ⟨i, Position.End⟩ ∈ l) := by
  have hchar := border_lookup_spec unitigs k m hm
  refine ⟨hchar, ?_⟩
  intro i seq w hs hf hl
  have hmem := mem_borderEntriesFrom k w unitigs 0 i seq hs
  simp only [Nat.zero_add] at hmem
  have hS := hmem.1 hf
  have hE := hmem.2 hl
  have hne : borderEntriesFrom k w unitigs 0 ≠ [] := by
    intro hnil
    rw [hnil] at hS
    cases hS
  refine ⟨borderEntriesFrom k w unitigs 0, ?_, hS, hE⟩
  rw [hchar w, if_neg hne]

/-- Witness for C4 with k = 4 and the single unitig TCG (length exactly
k-1 = 3, so its first and last 3-mers coincide): both its entries sit in
insertion order under the single key TCG. -/
theorem border_index_characterization_witness :
    (lookup [([84, 67, 71], [⟨0, Position.Start⟩, ⟨0, Position.End⟩])] [84, 67, 71] =
      if borderEntriesFrom 4 [84, 67, 71] [[84, 67, 71]] 0 = [] then none
      else some (borderEntriesFrom 4 [84, 67, 71] [[84, 67, 71]] 0)) ∧
    (∃ l, lookup [([84, 67, 71], [⟨0, Position.Start⟩, ⟨0, Position.End⟩])] [84, 67, 71] = some l ∧
      ⟨0, Position.Start⟩ ∈ l ∧ ⟨0, Position.End⟩ ∈ l) := by
  have h := border_index_characterization [[84, 67, 71]] 4
    [([84, 67, 71], [⟨0, Position.Start⟩, ⟨0, Position.End⟩])] (by decide)
  exact ⟨h.1 [84, 67, 71], h.2 0 [84, 67, 71] [84, 67, 71] rfl rfl rfl⟩

/-! ## Characterization of the derived edges -/

/-- The list of edges one border-index query appends to `edges[from]`:
every entry under the linking k-mer whose position matches, in bucket
order, tagged with the orientation pair of the query. -/
def query (borders : Borders) («from» : Nat) (from_orientation to_orientation : Orientation)
    (to_position : Position) (linking_kmer : List Nat) : List Edge :=
  (((lookup borders linking_kmer).getD []).filter (fun x => x.position == to_position)).map
    (fun x => ⟨«from», x.unitig_id, from_orientation, to_orientation⟩)

theorem push_edges_length (f : Nat) (fo t : Orientation) (tp : Position) (kmer : List Nat)
    (edges : List (List Edge)) (borders : Borders) :
    (push_edges f fo t tp kmer edges borders).length = edges.length := by
  unfold push_edges
  cases lookup borders kmer <;> simp

theorem push_edges_getElem?_ne (f : Nat) (fo t : Orientation) (tp : Position) (kmer : List Nat)
    (edges : List (List Edge)) (borders : Borders) (j : Nat) (hj : j ≠ f) :
    (push_edges f fo t tp kmer edges borders)[j]? = edges[j]? := by
  unfold push_edges
  cases lookup borders kmer with
  | none => rfl
  | some vec => exact List.getElem?_set_ne (fun h => hj h.symm)

theorem push_edges_getElem?_self (f : Nat) (fo t : Orientation) (tp : Position) (kmer : List Nat)
    (edges : List (List Edge)) (borders : Borders) (hf : f < edges.length) :
    (push_edges f fo t tp kmer edges borders)[f]? =
      some (edges.getD f [] ++ query borders f fo t tp kmer) := by
  unfold push_edges query
  cases hk : lookup borders kmer with
  | none =>
    simp only [hk, Option.getD_none, List.filter_nil, List.map_nil, List.append_nil]
    rw [List.getD_eq_getElem?_getD, List.getElem?_eq_getElem hf]
    rfl
  | some vec =>
    rw [List.getElem?_set_eq_of_lt _ hf]
    simp [hk]

theorem getD_of_getElem? {edges : List (List Edge)} {j : Nat} {l : List Edge}
    (h : edges[j]? = some l) : edges.getD j [] = l := by
  rw [List.getD_eq_getElem?_getD, h]
  rfl

theorem push4_length (borders : Borders) (i : Nat) (first last first_rc last_rc : List Nat)
    (edges : List (List Edge)) :
    (push4 borders i first last first_rc last_rc edges).length = edges.length := by
  simp [push4, push_edges_length]

theorem push4_getElem?_ne (borders : Borders) (i : Nat)
    (first last first_rc last_rc : List Nat) (edges : List (List Edge))
    (j : Nat) (hj : j ≠ i) :
    (push4 borders i first last first_rc last_rc edges)[j]? = edges[j]? := by
  unfold push4
  rw [push_edges_getElem?_ne _ _ _ _ _ _ _ _ hj, push_edges_getElem?_ne _ _ _ _ _ _ _ _ hj,
    push_edges_getElem?_ne _ _ _ _ _ _ _ _ hj, push_edges_getElem?_ne _ _ _ _ _ _ _ _ hj]

theorem push4_getElem?_self (borders : Borders) (i : Nat)
    (first last first_rc last_rc : List Nat) (edges : List (List Edge))
    (hi : i < edges.length) :
    (push4 borders i first last first_rc last_rc edges)[i]? =
      some (edges.getD i [] ++
        query borders i .Forward .Forward .Start last ++
        query borders i .Forward .Reverse .End last_rc ++
        query borders i .Reverse .Reverse .End first ++
        query borders i .Reverse .Forward .Start first_rc) := by
  unfold push4
  have h1 := push_edges_getElem?_self i .Forward .Forward .Start last edges borders hi
  have l1 : (push_edges i .Forward .Forward .Start last edges borders).length = edges.length :=
    push_edges_length _ _ _ _ _ _ _
  have h2 := push_edges_getElem?_self i .Forward .Reverse .End last_rc
    (push_edges i .Forward .Forward .Start last edges borders) borders (l1 ▸ hi)
  rw [getD_of_getElem? h1] at h2
  have l2 : (push_edges i .Forward .Reverse .End last_rc
      (push_edges i .Forward .Forward .Start last edges borders) borders).length =
      edges.length := by rw [push_edges_length, l1]
  have h3 := push_edges_getElem?_self i .Reverse .Reverse .End first
    (push_edges i .Forward .Reverse .End last_rc
      (push_edges i .Forward .Forward .Start last edges borders) borders) borders (l2 ▸ hi)
  rw [getD_of_getElem? h2] at h3
  have l3 : (push_edges i .Reverse .Reverse .End first
      (push_edges i .Forward .Reverse .End last_rc
        (push_edges i .Forward .Forward .Start last edges borders) borders) borders).length =
      edges.length := by rw [push_edges_length, l2]
  have h4 := push_edges_getElem?_self i .Reverse .Forward .Start first_rc
    (push_edges i .Reverse .Reverse .End first
      (push_edges i .Forward .Reverse .End last_rc
        (push_edges i .Forward .Forward .Start last edges borders) borders) borders) borders
    (l3 ▸ hi)
  rw [getD_of_getElem? h3] at h4
  exact h4

theorem buildEdgesAux_spec (k : Nat) (borders : Borders) :
    ∀ (rest : List (List Nat)) (i0 : Nat) (es0 es : List (List Edge)),
      i0 + rest.length ≤ es0.length →
      buildEdgesAux k borders rest i0 es0 = some es →
      es.length = es0.length ∧
      (∀ j, j < i0 ∨ i0 + rest.length ≤ j → es[j]? = es0[j]?) ∧
      (∀ t seq, rest[t]? = some seq →
        ∃ rcs first last first_rc last_rc,
          rcSeq seq = some rcs ∧ firstKmer seq k = some first ∧
          lastKmer seq k = some last ∧
          lastKmer rcs k = some first_rc ∧ firstKmer rcs k = some last_rc ∧
          es[i0 + t]? = some (es0.getD (i0 + t) [] ++
            query borders (i0 + t) .Forward .Forward .Start last ++
            query borders (i0 + t) .Forward .Reverse .End last_rc ++
            query borders (i0 + t) .Reverse .Reverse .End first ++
            query borders (i0 + t) .Reverse .Forward .Start first_rc)) := by
  intro rest
  induction rest with
  | nil =>
    intro i0 es0 es hlen h
    obtain rfl : es0 = es := by simpa [buildEdgesAux] using h
    refine ⟨rfl, fun j _ => rfl, fun t seq ht => ?_⟩
    simp at ht
  | cons seq rest ih =>
    intro i0 es0 es hlen h
    simp only [buildEdgesAux] at h
    cases hrc : rcSeq seq with
    | none => rw [hrc] at h; cases h
    | some rcs =>
    cases hf : firstKmer seq k with
    | none => rw [hrc, hf] at h; cases h
    | some first =>
    cases hl : lastKmer seq k with
    | none => rw [hrc, hf, hl] at h; cases h
    | some last =>
    rw [hrc, hf, hl] at h
    replace h : (match lastKmer rcs k, firstKmer rcs k with
      | some first_rc, some last_rc =>
        buildEdgesAux k borders rest (i0 + 1)
          (push4 borders i0 first last first_rc last_rc es0)
      | _, _ => none) = some es := h
    cases hfr : lastKmer rcs k with
    | none => rw [hfr] at h; cases h
    | some first_rc =>
    cases hlr : firstKmer rcs k with
    | none => rw [hfr, hlr] at h; cases h
    | some last_rc =>
    rw [hfr, hlr] at h
    replace h : buildEdgesAux k borders rest (i0 + 1)
      (push4 borders i0 first last first_rc last_rc es0) = some es := h
    have hi0 : i0 < es0.length := by
      simp only [List.length_cons] at hlen
      omega
    have hp4len : (push4 borders i0 first last first_rc last_rc es0).length = es0.length :=
      push4_length _ _ _ _ _ _ _
    have hIH := ih (i0 + 1) (push4 borders i0 first last first_rc last_rc es0) es
      (by rw [hp4len]; simp only [List.length_cons] at hlen; omega) h
    refine ⟨hIH.1.trans hp4len, ?_, ?_⟩
    · intro j hj
      simp only [List.length_cons] at hj
      have hjne : j ≠ i0 := by omega
      have h1 : es[j]? = (push4 borders i0 first last first_rc last_rc es0)[j]? := by
        apply hIH.2.1 j
        omega
      rw [h1, push4_getElem?_ne _ _ _ _ _ _ _ _ hjne]
    · intro t s hts
      cases t with
      | zero =>
        simp only [List.getElem?_cons_zero, Option.some.injEq] at hts
        subst hts
        refine ⟨rcs, first, last, first_rc, last_rc, hrc, hf, hl, hfr, hlr, ?_⟩
        have h1 : es[i0 + 0]? = (push4 borders i0 first last first_rc last_rc es0)[i0 + 0]? := by
          apply hIH.2.1
          omega
        rw [h1]
        simp only [Nat.add_zero]
        exact push4_getElem?_self borders i0 first last first_rc last_rc es0 hi0
      | succ t =>
        simp only [List.getElem?_cons_succ] at hts
        obtain ⟨rcs2, f2, l2, fr2, lr2, h1, h2, h3, h4, h5, h6⟩ := hIH.2.2 t s hts
        refine ⟨rcs2, f2, l2, fr2, lr2, h1, h2, h3, h4, h5, ?_⟩
        have harith : i0 + 1 + t = i0 + (t + 1) := by omega
        rw [harith] at h6
        have hne : i0 + (t + 1) ≠ i0 := by omega
        have hgd : (push4 borders i0 first last first_rc last_rc es0).getD (i0 + (t + 1)) [] =
            es0.getD (i0 + (t + 1)) [] := by
          rw [List.getD_eq_getElem?_getD, List.getD_eq_getElem?_getD,
            push4_getElem?_ne _ _ _ _ _ _ _ _ hne]
        rw [hgd] at h6
        exact h6

theorem getD_replicate_nil (n i : Nat) :
    (List.replicate n ([] : List Edge)).getD i [] = [] := by
  rw [List.getD_eq_getElem?_getD]
  cases h : (List.replicate n ([] : List Edge))[i]? with
  | none => rfl
  | some v =>
    have hv : v = [] := List.eq_of_mem_replicate (getElem?_mem_list h)
    simp [hv]

/-- C3: for every unitig `i` of a successfully built graph, `edges[i]` is
exactly the concatenation, in source order, of the four border-index
queries — `last` with (Forward, Forward, match Start), `last_rc` with
(Forward, Reverse, match End), `first` with (Reverse, Reverse, match End),
`first_rc` with (Reverse, Forward, match Start) — each contributing one
edge `(from = i, to = entry.unitig_id)` per matching border entry. -/
theorem edge_deriver_four_queries (unitigs : List (List Nat)) (k : Nat) (dbg : DBG)
    (borders : Borders) (i : Nat) (seq rcs first last first_rc last_rc : List Nat)
    (hb : buildBordersAux k unitigs 0 [] = some borders)
    (hd : build_dbg unitigs k = some dbg)
    (hs : unitigs[i]? = some seq)
    (h1 : rcSeq seq = some rcs)
    (h2 : firstKmer seq k = some first)
    (h3 : lastKmer seq k = some last)
    (h4 : lastKmer rcs k = some first_rc)
    (h5 : firstKmer rcs k = some last_rc) :
    dbg.edges[i]? = some (
      query borders i .Forward .Forward .Start last ++
      query borders i .Forward .Reverse .End last_rc ++
      query borders i .Reverse .Reverse .End first ++
      query borders i .Reverse .Forward .Start first_rc) := by
  unfold build_dbg at hd
  rw [hb] at hd
  replace hd : (match buildEdgesAux k borders unitigs 0 (List.replicate unitigs.length []) with
    | none => none
    | some edges => some (⟨unitigs, edges⟩ : DBG)) = some dbg := hd
  cases he : buildEdgesAux k borders unitigs 0 (List.replicate unitigs.length []) with
  | none => rw [he] at hd; cases hd
  | some es =>
    rw [he] at hd
    replace hd : some (⟨unitigs, es⟩ : DBG) = some dbg := hd
    injection hd with hd
    subst hd
    have hspec := buildEdgesAux_spec k borders unitigs 0
      (List.replicate unitigs.length []) es (by simp) he
    obtain ⟨rcs2, f2, l2, fr2, lr2, g1, g2, g3, g4, g5, g6⟩ := hspec.2.2 i seq hs
    rw [g1] at h1; injection h1 with h1
    rw [g2] at h2; injection h2 with h2
    rw [g3] at h3; injection h3 with h3
    rw [h1] at g4 g5
    rw [g4] at h4; injection h4 with h4
    rw [g5] at h5; injection h5 with h5
    subst h1 h2 h3 h4 h5
    simp only [Nat.zero_add, getD_replicate_nil, List.nil_append] at g6
    exact g6

/-- The two-unitig example input: AATCG and TCGA, with k = 4. -/
def exUnitigs : List (List Nat) := [[65, 65, 84, 67, 71], [84, 67, 71, 65]]

/-- The border index `build_dbg` builds for `exUnitigs` with k = 4. -/
def exBorders : Borders :=
  [([65, 65, 84], [⟨0, Position.Start⟩]),
   ([84, 67, 71], [⟨0, Position.End⟩, ⟨1, Position.Start⟩]),
   ([67, 71, 65], [⟨1, Position.End⟩])]

/-- The graph `build_dbg` builds for `exUnitigs` with k = 4.  Unitig 1
(TCGA) is its own reverse complement, so unitig 0 gets a second outgoing
edge (0→1, Forward, Reverse) from the `last_rc` query in addition to
(0→1, Forward, Forward) from the `last` query. -/
def exDBG : DBG :=
  ⟨exUnitigs,
    [[⟨0, 1, .Forward, .Forward⟩, ⟨0, 1, .Forward, .Reverse⟩],
     [⟨1, 0, .Forward, .Reverse⟩, ⟨1, 0, .Reverse, .Reverse⟩]]⟩

theorem build_dbg_exUnitigs : build_dbg exUnitigs 4 = some exDBG := by decide

theorem buildBorders_exUnitigs : buildBordersAux 4 exUnitigs 0 [] = some exBorders := by decide

/-- Witness for C3 at unitig 0 of the concrete example. -/
theorem edge_deriver_four_queries_witness :
    exDBG.edges[0]? = some (
      query exBorders 0 .Forward .Forward .Start [84, 67, 71] ++
      query exBorders 0 .Forward .Reverse .End [67, 71, 65] ++
      query exBorders 0 .Reverse .Reverse .End [65, 65, 84] ++
      query exBorders 0 .Reverse .Forward .Start [65, 84, 84]) :=
  edge_deriver_four_queries exUnitigs 4 exDBG exBorders 0
    [65, 65, 84, 67, 71] [67, 71, 65, 84, 84] [65, 65, 84] [84, 67, 71] [65, 84, 84] [67, 71, 65]
    buildBorders_exUnitigs build_dbg_exUnitigs rfl (by decide) (by decide) (by decide)
    (by decide) (by decide)

/-! ## Step equations of the DFS loop -/

theorem dfsLoop_nil (edges : List (List Edge)) (visited : List Bool)
    (orientations : List Orientation) :
    dfsLoop edges [] visited orientations = some (visited, orientations) := by
  rw [dfsLoop]

theorem dfsLoop_oob_visited (edges : List (List Edge)) (u : Nat) (o : Orientation)
    (stack : List (Nat × Orientation)) (visited : List Bool) (orientations : List Orientation)
    (h : visited[u]? = none) :
    dfsLoop edges ((u, o) :: stack) visited orientations = none := by
  rw [dfsLoop]
  split
  next heq => rfl
  next heq => rw [h] at heq; try cases heq
  next heq => rw [h] at heq; try cases heq

theorem dfsLoop_visited (edges : List (List Edge)) (u : Nat) (o : Orientation)
    (stack : List (Nat × Orientation)) (visited : List Bool) (orientations : List Orientation)
    (h : visited[u]? = some true) :
    dfsLoop edges ((u, o) :: stack) visited orientations =
      dfsLoop edges stack visited orientations := by
  rw [dfsLoop]
  split
  next heq => rw [h] at heq; try cases heq
  next heq => rfl
  next heq => rw [h] at heq; try cases heq

theorem dfsLoop_oob_orientations (edges : List (List Edge)) (u : Nat) (o : Orientation)
    (stack : List (Nat × Orientation)) (visited : List Bool) (orientations : List Orientation)
    (h : visited[u]? = some false) (h2 : ¬u < orientations.length) :
    dfsLoop edges ((u, o) :: stack) visited orientations = none := by
  rw [dfsLoop]
  split
  next heq => rw [h] at heq; try cases heq
  next heq => rw [h] at heq; try cases heq
  next heq => rw [if_neg h2]

theorem dfsLoop_oob_edges (edges : List (List Edge)) (u : Nat) (o : Orientation)
    (stack : List (Nat × Orientation)) (visited : List Bool) (orientations : List Orientation)
    (h : visited[u]? = some false) (h2 : u < orientations.length)
    (h3 : edges[u]? = none) :
    dfsLoop edges ((u, o) :: stack) visited orientations = none := by
  rw [dfsLoop]
  split
  next heq => rw [h] at heq; try cases heq
  next heq => rw [h] at heq; try cases heq
  next heq =>
    rw [if_pos h2]
    split
    next heq2 => rfl
    next outs heq2 => rw [h3] at heq2; try cases heq2

theorem dfsLoop_visit (edges : List (List Edge)) (u : Nat) (o : Orientation)
    (stack : List (Nat × Orientation)) (visited : List Bool) (orientations : List Orientation)
    (outs : List Edge) (h1 : visited[u]? = some false) (h2 : u < orientations.length)
    (h3 : edges[u]? = some outs) :
    dfsLoop edges ((u, o) :: stack) visited orientations =
      dfsLoop edges
        ((outs.map (fun e => (e.«to», propagate o e.from_orientation e.to_orientation))).reverse
          ++ stack)
        (visited.set u true) (orientations.set u o) := by
  rw [dfsLoop]
  split
  next heq => rw [h1] at heq; try cases heq
  next heq => rw [h1] at heq; try cases heq
  next heq =>
    rw [if_pos h2]
    split
    next heq2 => rw [h3] at heq2; try cases heq2
    next outs2 heq2 =>
      rw [h3] at heq2
      injection heq2 with heq2
      subst heq2
      rw [foldl_cons_push]

/-! ## Totality and freezing of the traversal -/

theorem dfsLoop_spec (edges : List (List Edge)) (n : Nat)
    (hedges : edges.length = n)
    (hwf : ∀ l ∈ edges, ∀ e ∈ l, e.«to» < n) :
    ∀ (N : Nat) (stack : List (Nat × Orientation)) (visited : List Bool)
      (orientations : List Orientation),
      countFalse visited * (maxOut edges + 1) + stack.length ≤ N →
      visited.length = n → orientations.length = n →
      (∀ p ∈ stack, p.1 < n) →
      ∃ v o, dfsLoop edges stack visited orientations = some (v, o) ∧
        v.length = n ∧ o.length = n ∧
        (∀ u : Nat, visited[u]? = some true → v[u]? = some true ∧ o[u]? = orientations[u]?) ∧
        (∀ p ∈ stack, v[p.1]? = some true) := by
  intro N
  induction N with
  | zero =>
    intro stack visited orientations hm hv ho hs
    obtain rfl : stack = [] := List.length_eq_zero.mp (by omega)
    rw [dfsLoop_nil]
    exact ⟨visited, orientations, rfl, hv, ho, fun u hu => ⟨hu, rfl⟩, by simp⟩
  | succ N ihN =>
    intro stack visited orientations hm hv ho hs
    cases stack with
    | nil =>
      rw [dfsLoop_nil]
      exact ⟨visited, orientations, rfl, hv, ho, fun u hu => ⟨hu, rfl⟩, by simp⟩
    | cons p rest =>
      obtain ⟨u, o⟩ := p
      have hu_n : u < n := hs (u, o) (List.mem_cons_self _ _)
      have hu_len : u < visited.length := by omega
      cases hvu : visited[u]? with
      | none =>
        exfalso
        have := List.getElem?_eq_getElem hu_len
        rw [hvu] at this
        cases this
      | some b =>
        cases b with
        | true =>
          have hm2 : countFalse visited * (maxOut edges + 1) + rest.length ≤ N := by
            simp only [List.length_cons] at hm
            omega
          obtain ⟨v, o2, hrun, hvl, hol, hmono, hstack⟩ :=
            ihN rest visited orientations hm2 hv ho
              (fun q hq => hs q (List.mem_cons_of_mem _ hq))
          refine ⟨v, o2, ?_, hvl, hol, hmono, ?_⟩
          · rw [dfsLoop_visited _ _ _ _ _ _ hvu]
            exact hrun
          · intro q hq
            rcases List.mem_cons.mp hq with rfl | hq
            · exact (hmono u hvu).1
            · exact hstack q hq
        | false =>
          have ho_len : u < orientations.length := by omega
          have hu_elen : u < edges.length := by omega
          cases hE : edges[u]? with
          | none =>
            exfalso
            have := List.getElem?_eq_getElem hu_elen
            rw [hE] at this
            cases this
          | some outs =>
            have houts_mem : outs ∈ edges := getElem?_mem_list hE
            have houts_le : outs.length ≤ maxOut edges := length_le_maxOut houts_mem
            have hcf : countFalse (visited.set u true) + 1 ≤ countFalse visited :=
              countFalse_set hvu
            have hmul := Nat.mul_le_mul_right (maxOut edges + 1) hcf
            rw [Nat.add_mul, Nat.one_mul] at hmul
            have hm2 : countFalse (visited.set u true) * (maxOut edges + 1) +
                ((outs.map (fun e =>
                  (e.«to», propagate o e.from_orientation e.to_orientation))).reverse
                  ++ rest).length ≤ N := by
              simp only [List.length_append, List.length_reverse, List.length_map,
                List.length_cons] at hm ⊢
              have : outs.length < maxOut edges + 1 := by omega
              linarith
            obtain ⟨v, o2, hrun, hvl, hol, hmono, hstack⟩ :=
              ihN _ (visited.set u true) (orientations.set u o) hm2
                (by rw [List.length_set]; exact hv)
                (by rw [List.length_set]; exact ho)
                (by
                  intro q hq
                  rcases List.mem_append.mp hq with hq | hq
                  · rw [List.mem_reverse] at hq
                    obtain ⟨e, he, rfl⟩ := List.mem_map.mp hq
                    exact hwf outs houts_mem e he
                  · exact hs q (List.mem_cons_of_mem _ hq))
            refine ⟨v, o2, ?_, hvl, hol, ?_, ?_⟩
            · rw [dfsLoop_visit _ _ _ _ _ _ _ hvu ho_len hE]
              exact hrun
            · intro w hw
              have hwne : w ≠ u := by
                intro hweq
                rw [hweq, hvu] at hw
                cases hw
              have h1 : (visited.set u true)[w]? = some true := by
                rw [List.getElem?_set_ne (fun hh => hwne hh.symm)]
                exact hw
              obtain ⟨hh1, hh2⟩ := hmono w h1
              refine ⟨hh1, ?_⟩
              rw [hh2, List.getElem?_set_ne (fun hh => hwne hh.symm)]
            · intro q hq
              rcases List.mem_cons.mp hq with rfl | hq
              · have h1 : (visited.set u true)[u]? = some true :=
                  List.getElem?_set_eq_of_lt true hu_len
                exact (hmono u h1).1
              · exact hstack q (List.mem_append_right _ hq)

theorem outer_spec (edges : List (List Edge)) (n : Nat)
    (hedges : edges.length = n)
    (hwf : ∀ l ∈ edges, ∀ e ∈ l, e.«to» < n) :
    ∀ (roots : List Nat) (visited : List Bool) (orientations : List Orientation),
      visited.length = n → orientations.length = n →
      (∀ r ∈ roots, r < n) →
      ∃ v o, outer edges roots visited orientations = some (v, o) ∧
        v.length = n ∧ o.length = n ∧
        (∀ u : Nat, visited[u]? = some true → v[u]? = some true ∧ o[u]? = orientations[u]?) ∧
        (∀ r ∈ roots, v[r]? = some true) := by
  intro roots
  induction roots with
  | nil =>
    intro visited orientations hv ho hr
    exact ⟨visited, orientations, rfl, hv, ho, fun u hu => ⟨hu, rfl⟩, by simp⟩
  | cons root roots ih =>
    intro visited orientations hv ho hr
    have hroot : root < n := hr root (List.mem_cons_self _ _)
    have hroot_len : root < visited.length := by omega
    have houter : outer edges (root :: roots) visited orientations =
        match visited[root]? with
        | none => none
        | some true => outer edges roots visited orientations
        | some false =>
          match dfsLoop edges [(root, Orientation.Forward)] visited orientations with
          | none => none
          | some (v, o) => outer edges roots v o := rfl
    cases hvr : visited[root]? with
    | none =>
      exfalso
      have := List.getElem?_eq_getElem hroot_len
      rw [hvr] at this
      cases this
    | some b =>
      cases b with
      | true =>
        obtain ⟨v, o2, hrun, hvl, hol, hmono, hroots⟩ :=
          ih visited orientations hv ho (fun r hr2 => hr r (List.mem_cons_of_mem _ hr2))
        refine ⟨v, o2, ?_, hvl, hol, hmono, ?_⟩
        · rw [houter, hvr]
          exact hrun
        · intro r hr2
          rcases List.mem_cons.mp hr2 with rfl | hr2
          · exact (hmono r hvr).1
          · exact hroots r hr2
      | false =>
        obtain ⟨v1, o1, hdfs, hv1, ho1, hmono1, hstack1⟩ :=
          dfsLoop_spec edges n hedges hwf
            (countFalse visited * (maxOut edges + 1) + 1)
            [(root, Orientation.Forward)] visited orientations (le_refl _) hv ho
            (by
              intro q hq
              rcases List.mem_singleton.mp hq with rfl
              exact hroot)
        obtain ⟨v, o2, hrun, hvl, hol, hmono, hroots⟩ :=
          ih v1 o1 hv1 ho1 (fun r hr2 => hr r (List.mem_cons_of_mem _ hr2))
        refine ⟨v, o2, ?_, hvl, hol, ?_, ?_⟩
        · rw [houter, hvr, hdfs]
          exact hrun
        · intro w hw
          obtain ⟨hh1, hh2⟩ := hmono1 w hw
          obtain ⟨hh3, hh4⟩ := hmono w hh1
          exact ⟨hh3, hh4.trans hh2⟩
        · intro r hr2
          rcases List.mem_cons.mp hr2 with rfl | hr2
          · have h1 : v1[r]? = some true :=
              hstack1 (r, Orientation.Forward) (List.mem_singleton.mpr rfl)
            exact (hmono r h1).1
          · exact hroots r hr2

theorem dfsLoop_freeze (edges : List (List Edge)) :
    ∀ (N : Nat) (stack : List (Nat × Orientation)) (visited : List Bool)
      (orientations : List Orientation) (v2 : List Bool) (o2 : List Orientation),
      countFalse visited * (maxOut edges + 1) + stack.length ≤ N →
      dfsLoop edges stack visited orientations = some (v2, o2) →
      ∀ u : Nat, visited[u]? = some true → v2[u]? = some true ∧ o2[u]? = orientations[u]? := by
  intro N
  induction N with
  | zero =>
    intro stack visited orientations v2 o2 hm hrun u hu
    obtain rfl : stack = [] := List.length_eq_zero.mp (by omega)
    rw [dfsLoop_nil] at hrun
    injection hrun with hrun
    obtain ⟨rfl, rfl⟩ := Prod.mk.injEq .. ▸ Prod.ext_iff.mp hrun
    exact ⟨hu, rfl⟩
  | succ N ihN =>
    intro stack visited orientations v2 o2 hm hrun u hu
    cases stack with
    | nil =>
      rw [dfsLoop_nil] at hrun
      injection hrun with hrun
      obtain ⟨rfl, rfl⟩ := Prod.mk.injEq .. ▸ Prod.ext_iff.mp hrun
      exact ⟨hu, rfl⟩
    | cons p rest =>
      obtain ⟨w, ow⟩ := p
      cases hvw : visited[w]? with
      | none =>
        rw [dfsLoop_oob_visited _ _ _ _ _ _ hvw] at hrun
        cases hrun
      | some b =>
        cases b with
        | true =>
          rw [dfsLoop_visited _ _ _ _ _ _ hvw] at hrun
          have hm2 : countFalse visited * (maxOut edges + 1) + rest.length ≤ N := by
            simp only [List.length_cons] at hm
            omega
          exact ihN rest visited orientations v2 o2 hm2 hrun u hu
        | false =>
          by_cases hw2 : w < orientations.length
          · cases hE : edges[w]? with
            | none =>
              rw [dfsLoop_oob_edges _ _ _ _ _ _ hvw hw2 hE] at hrun
              cases hrun
            | some outs =>
              rw [dfsLoop_visit _ _ _ _ _ _ _ hvw hw2 hE] at hrun
              have houts_le : outs.length ≤ maxOut edges :=
                length_le_maxOut (getElem?_mem_list hE)
              have hcf : countFalse (visited.set w true) + 1 ≤ countFalse visited :=
                countFalse_set hvw
              have hmul := Nat.mul_le_mul_right (maxOut edges + 1) hcf
              rw [Nat.add_mul, Nat.one_mul] at hmul
              have hm2 : countFalse (visited.set w true) * (maxOut edges + 1) +
                  ((outs.map (fun e =>
                    (e.«to», propagate ow e.from_orientation e.to_orientation))).reverse
                    ++ rest).length ≤ N := by
                simp only [List.length_append, List.length_reverse, List.length_map,
                  List.length_cons] at hm ⊢
                have : outs.length < maxOut edges + 1 := by omega
                linarith
              have hwne : u ≠ w := by
                intro hweq
                rw [hweq, hvw] at hu
                cases hu
              have hu2 : (visited.set w true)[u]? = some true := by
                rw [List.getElem?_set_ne (fun hh => hwne hh.symm)]
                exact hu
              obtain ⟨hh1, hh2⟩ := ihN _ (visited.set w true) (orientations.set w ow)
                v2 o2 hm2 hrun u hu2
              refine ⟨hh1, ?_⟩
              rw [hh2, List.getElem?_set_ne (fun hh => hwne hh.symm)]
          · rw [dfsLoop_oob_orientations _ _ _ _ _ _ hvw hw2] at hrun
            cases hrun

theorem outer_freeze (edges : List (List Edge)) :
    ∀ (roots : List Nat) (visited : List Bool) (orientations : List Orientation)
      (v2 : List Bool) (o2 : List Orientation),
      outer edges roots visited orientations = some (v2, o2) →
      ∀ u : Nat, visited[u]? = some true → v2[u]? = some true ∧ o2[u]? = orientations[u]? := by
  intro roots
  induction roots with
  | nil =>
    intro visited orientations v2 o2 hrun u hu
    replace hrun : some (visited, orientations) = some (v2, o2) := hrun
    injection hrun with hrun
    obtain ⟨rfl, rfl⟩ := Prod.mk.injEq .. ▸ Prod.ext_iff.mp hrun
    exact ⟨hu, rfl⟩
  | cons root roots ih =>
    intro visited orientations v2 o2 hrun u hu
    have houter : outer edges (root :: roots) visited orientations =
        match visited[root]? with
        | none => none
        | some true => outer edges roots visited orientations
        | some false =>
          match dfsLoop edges [(root, Orientation.Forward)] visited orientations with
          | none => none
          | some (v, o) => outer edges roots v o := rfl
    rw [houter] at hrun
    cases hvr : visited[root]? with
    | none => rw [hvr] at hrun; cases hrun
    | some b =>
      cases b with
      | true =>
        rw [hvr] at hrun
        exact ih visited orientations v2 o2 hrun u hu
      | false =>
        rw [hvr] at hrun
        cases hdfs : dfsLoop edges [(root, Orientation.Forward)] visited orientations with
        | none => rw [hdfs] at hrun; cases hrun
        | some p =>
          obtain ⟨v1, o1⟩ := p
          rw [hdfs] at hrun
          replace hrun : outer edges roots v1 o1 = some (v2, o2) := hrun
          obtain ⟨hh1, hh2⟩ := dfsLoop_freeze edges
            (countFalse visited * (maxOut edges + 1) + 1)
            [(root, Orientation.Forward)] visited orientations v1 o1 (le_refl _) hdfs u hu
          obtain ⟨hh3, hh4⟩ := ih v1 o1 v2 o2 hrun u hh1
          exact ⟨hh3, hh4.trans hh2⟩

/-! ## The claims about the traversal -/

/-- C1: on every well-formed graph (edge lists index-aligned with the
unitigs and edge targets in range — what `build_dbg` produces, see C10),
`pick_orientations` returns successfully, the resulting orientation vector
has exactly one entry per unitig id `0..n`, and after the outer loop every
id has been visited; since an id is assigned only at the moment it turns
from unvisited to visited (and `visited_pop_discarded` shows a visited
id keeps its orientation unmodified forever), every id receives exactly one
final orientation in exactly one component exploration. -/
theorem pick_orientations_total (dbg : DBG)
    (h1 : dbg.edges.length = dbg.unitigs.length)
    (h2 : ∀ l ∈ dbg.edges, ∀ e ∈ l, e.«to» < dbg.unitigs.length) :
    ∃ v os, outer dbg.edges (List.range dbg.unitigs.length)
        (List.replicate dbg.unitigs.length false)
        (List.replicate dbg.unitigs.length Orientation.Forward) = some (v, os) ∧
      pick_orientations dbg = some os ∧
      os.length = dbg.unitigs.length ∧
      (∀ i < dbg.unitigs.length, v[i]? = some true) := by
  obtain ⟨v, os, hrun, hvl, hol, hmono, hroots⟩ :=
    outer_spec dbg.edges dbg.unitigs.length h1 h2 (List.range dbg.unitigs.length)
      (List.replicate dbg.unitigs.length false)
      (List.replicate dbg.unitigs.length Orientation.Forward)
      (by simp) (by simp) (fun r hr => List.mem_range.mp hr)
  refine ⟨v, os, hrun, ?_, hol, fun i hi => hroots i (List.mem_range.mpr hi)⟩
  unfold pick_orientations
  rw [hrun]
  rfl

/-- Witness for C1 on the concrete two-unitig example graph. -/
theorem pick_orientations_total_witness :
    ∃ v os, outer exDBG.edges (List.range exDBG.unitigs.length)
        (List.replicate exDBG.unitigs.length false)
        (List.replicate exDBG.unitigs.length Orientation.Forward) = some (v, os) ∧
      pick_orientations exDBG = some os ∧
      os.length = exDBG.unitigs.length ∧
      (∀ i < exDBG.unitigs.length, v[i]? = some true) :=
  pick_orientations_total exDBG rfl (by decide)

theorem propagate_eq_if (o fo t : Orientation) :
    propagate o fo t = if fo = t then o else o.flip := by
  cases fo <;> cases t <;> simp [propagate]

/-- C2: when the DFS processes a popped unvisited unitig `u` carrying
orientation `o`, the entry it pushes for each outgoing edge
`(u, v, from_o, to_o)` carries exactly orientation `o` when
`from_o = to_o` and `flip o` when the two tags differ. -/
theorem dfs_edge_propagation (edges : List (List Edge)) (u : Nat) (o : Orientation)
    (stack : List (Nat × Orientation)) (visited : List Bool)
    (orientations : List Orientation) (outs : List Edge)
    (h1 : visited[u]? = some false) (h2 : u < orientations.length)
    (h3 : edges[u]? = some outs) :
    dfsLoop edges ((u, o) :: stack) visited orientations =
      dfsLoop edges
        ((outs.map (fun e => (e.«to»,
          if e.from_orientation = e.to_orientation then o else o.flip))).reverse ++ stack)
        (visited.set u true) (orientations.set u o) := by
  rw [dfsLoop_visit edges u o stack visited orientations outs h1 h2 h3]
  simp only [propagate_eq_if]

/-- Witness for C2 on a one-edge graph with differing orientation tags. -/
theorem dfs_edge_propagation_witness :
    dfsLoop [[⟨0, 1, Orientation.Forward, Orientation.Reverse⟩]] [(0, Orientation.Forward)]
        [false] [Orientation.Forward] =
      dfsLoop [[⟨0, 1, Orientation.Forward, Orientation.Reverse⟩]]
        (([(⟨0, 1, Orientation.Forward, Orientation.Reverse⟩ : Edge)].map (fun e => (e.«to»,
          if e.from_orientation = e.to_orientation then Orientation.Forward
          else Orientation.Forward.flip))).reverse ++ [])
        ([false].set 0 true) ([Orientation.Forward].set 0 Orientation.Forward) :=
  dfs_edge_propagation [[⟨0, 1, Orientation.Forward, Orientation.Reverse⟩]] 0
    Orientation.Forward [] [false] [Orientation.Forward]
    [⟨0, 1, Orientation.Forward, Orientation.Reverse⟩] rfl (by decide) rfl

/-- C9: a popped stack entry for an already-visited unitig is discarded
unconditionally — the equation holds for every proposed orientation `o`,
with no consistency check — and once a unitig is visited, its stored
orientation survives the entire remaining run (`outer`) unchanged. -/
theorem visited_pop_discarded (edges : List (List Edge)) (u : Nat) (o : Orientation)
    (stack : List (Nat × Orientation)) (visited : List Bool)
    (orientations : List Orientation) (h : visited[u]? = some true) :
    (dfsLoop edges ((u, o) :: stack) visited orientations =
      dfsLoop edges stack visited orientations) ∧
    (∀ roots v2 o2, outer edges roots visited orientations = some (v2, o2) →
      v2[u]? = some true ∧ o2[u]? = orientations[u]?) :=
  ⟨dfsLoop_visited edges u o stack visited orientations h,
   fun roots v2 o2 hrun => outer_freeze edges roots visited orientations v2 o2 hrun u h⟩

/-- Witness for C9: a visited unitig popped with the opposite orientation
is discarded, and its orientation is unchanged by a subsequent run. -/
theorem visited_pop_discarded_witness :
    (dfsLoop [[]] [(0, Orientation.Reverse)] [true] [Orientation.Forward] =
      dfsLoop [[]] [] [true] [Orientation.Forward]) ∧
    ([true][0]? = some true ∧ [Orientation.Forward][0]? = [Orientation.Forward][0]?) :=
  ⟨(visited_pop_discarded [[]] 0 Orientation.Reverse [] [true] [Orientation.Forward] rfl).1,
   (visited_pop_discarded [[]] 0 Orientation.Reverse [] [true] [Orientation.Forward] rfl).2
     [0] [true] [Orientation.Forward] rfl⟩

theorem query_mem {borders : Borders} {f : Nat} {fo t : Orientation} {tp : Position}
    {kmer : List Nat} {e : Edge} (h : e ∈ query borders f fo t tp kmer) :
    e.«from» = f ∧ ∃ x ∈ (lookup borders kmer).getD [], e.«to» = x.unitig_id := by
  unfold query at h
  obtain ⟨x, hx, rfl⟩ := List.mem_map.mp h
  exact ⟨rfl, x, (List.mem_filter.mp hx).1, rfl⟩

/-- C10: every edge `build_dbg` stores in `edges[i]` has `from = i` and
`to < n` (border-index entries only carry ids inserted from `0..n`), and
consequently `pick_orientations` succeeds on the built graph: every index
access it performs through an edge is in bounds. -/
theorem edges_in_bounds_and_traversal_total (unitigs : List (List Nat)) (k : Nat)
    (dbg : DBG) (h : build_dbg unitigs k = some dbg) :
    (∀ i : Nat, ∀ l, dbg.edges[i]? = some l → ∀ e ∈ l,
      e.«from» = i ∧ e.«to» < dbg.unitigs.length) ∧
    (∃ os, pick_orientations dbg = some os) := by
  unfold build_dbg at h
  cases hb : buildBordersAux k unitigs 0 [] with
  | none => rw [hb] at h; cases h
  | some borders =>
    rw [hb] at h
    replace h : (match buildEdgesAux k borders unitigs 0 (List.replicate unitigs.length []) with
      | none => none
      | some edges => some (⟨unitigs, edges⟩ : DBG)) = some dbg := h
    cases he : buildEdgesAux k borders unitigs 0 (List.replicate unitigs.length []) with
    | none => rw [he] at h; cases h
    | some es =>
      rw [he] at h
      replace h : some (⟨unitigs, es⟩ : DBG) = some dbg := h
      injection h with h
      subst h
      have hspec := buildEdgesAux_spec k borders unitigs 0
        (List.replicate unitigs.length []) es (by simp) he
      have hlen : es.length = unitigs.length := by
        rw [hspec.1, List.length_replicate]
      have hbound : ∀ i : Nat, ∀ l, es[i]? = some l → ∀ e ∈ l,
          e.«from» = i ∧ e.«to» < unitigs.length := by
        intro i l hl e hme
        have hi : i < es.length := by
          by_contra hcon
          rw [List.getElem?_eq_none (by omega)] at hl
          cases hl
        have hiu : i < unitigs.length := by omega
        have hsu : unitigs[i]? = some (unitigs[i]) := List.getElem?_eq_getElem hiu
        obtain ⟨rcs, f2, l2, fr2, lr2, g1, g2, g3, g4, g5, g6⟩ := hspec.2.2 i (unitigs[i]) hsu
        simp only [Nat.zero_add, getD_replicate_nil, List.nil_append] at g6
        rw [g6] at hl
        injection hl with hl
        subst hl
        have hq : ∀ (fo t : Orientation) (tp : Position) (kmer : List Nat),
            e ∈ query borders i fo t tp kmer → e.«from» = i ∧ e.«to» < unitigs.length := by
          intro fo t tp kmer hme2
          obtain ⟨hfrom, x, hx, hto⟩ := query_mem hme2
          refine ⟨hfrom, ?_⟩
          cases hlk : lookup borders kmer with
          | none =>
            rw [hlk] at hx
            simp at hx
          | some vec =>
            rw [hlk] at hx
            simp only [Option.getD_some] at hx
            have hchar := border_lookup_spec unitigs k borders hb kmer
            rw [hlk] at hchar
            by_cases hnil : borderEntriesFrom k kmer unitigs 0 = []
            · rw [if_pos hnil] at hchar; cases hchar
            · rw [if_neg hnil] at hchar
              injection hchar with hchar
              subst hchar
              have hid := borderEntriesFrom_id_lt k kmer unitigs 0 x hx
              rw [hto]
              omega
        rcases List.mem_append.mp hme with hme3 | hme3
        · rcases List.mem_append.mp hme3 with hme4 | hme4
          · rcases List.mem_append.mp hme4 with hme5 | hme5
            · exact hq _ _ _ _ hme5
            · exact hq _ _ _ _ hme5
          · exact hq _ _ _ _ hme4
        · exact hq _ _ _ _ hme3
      refine ⟨hbound, ?_⟩
      have hwf : ∀ l ∈ es, ∀ e ∈ l, e.«to» < unitigs.length := by
        intro l hlmem e hme
        obtain ⟨j, hj, hjeq⟩ := List.getElem_of_mem hlmem
        exact (hbound j l (by rw [← hjeq]; exact List.getElem?_eq_getElem hj) e hme).2
      obtain ⟨v, os, hrun, _, _, _, _⟩ :=
        outer_spec es unitigs.length hlen hwf (List.range unitigs.length)
          (List.replicate unitigs.length false)
          (List.replicate unitigs.length Orientation.Forward)
          (by simp) (by simp) (fun r hr => List.mem_range.mp hr)
      refine ⟨os, ?_⟩
      unfold pick_orientations
      rw [show (⟨unitigs, es⟩ : DBG).edges = es from rfl,
        show (⟨unitigs, es⟩ : DBG).unitigs = unitigs from rfl, hrun]
      rfl

/-- Witness for C10 on the concrete two-unitig example. -/
theorem edges_in_bounds_and_traversal_total_witness :
    ((⟨0, 1, Orientation.Forward, Orientation.Forward⟩ : Edge).«from» = 0 ∧
      (⟨0, 1, Orientation.Forward, Orientation.Forward⟩ : Edge).«to» <
        exDBG.unitigs.length) ∧
    (∃ os, pick_orientations exDBG = some os) :=
  ⟨(edges_in_bounds_and_traversal_total exUnitigs 4 exDBG build_dbg_exUnitigs).1 0
      [⟨0, 1, .Forward, .Forward⟩, ⟨0, 1, .Forward, .Reverse⟩] rfl
      ⟨0, 1, Orientation.Forward, Orientation.Forward⟩ (List.mem_cons_self _ _),
    (edges_in_bounds_and_traversal_total exUnitigs 4 exDBG build_dbg_exUnitigs).2⟩

/-! ## The concrete end-to-end example -/

theorem exDfs :
    dfsLoop exDBG.edges [(0, Orientation.Forward)] [false, false]
        [Orientation.Forward, Orientation.Forward] =
      some ([true, true], [Orientation.Forward, Orientation.Reverse]) := by
  rw [dfsLoop_visit exDBG.edges 0 Orientation.Forward [] [false, false]
    [Orientation.Forward, Orientation.Forward]
    [⟨0, 1, .Forward, .Forward⟩, ⟨0, 1, .Forward, .Reverse⟩] rfl (by decide) rfl]
  show dfsLoop exDBG.edges [(1, Orientation.Reverse), (1, Orientation.Forward)]
    [true, false] [Orientation.Forward, Orientation.Forward] = _
  rw [dfsLoop_visit exDBG.edges 1 Orientation.Reverse [(1, Orientation.Forward)]
    [true, false] [Orientation.Forward, Orientation.Forward]
    [⟨1, 0, .Forward, .Reverse⟩, ⟨1, 0, .Reverse, .Reverse⟩] rfl (by decide) rfl]
  show dfsLoop exDBG.edges
    [(0, Orientation.Reverse), (0, Orientation.Forward), (1, Orientation.Forward)]
    [true, true] [Orientation.Forward, Orientation.Reverse] = _
  rw [dfsLoop_visited exDBG.edges 0 Orientation.Reverse
    [(0, Orientation.Forward), (1, Orientation.Forward)]
    [true, true] [Orientation.Forward, Orientation.Reverse] rfl]
  rw [dfsLoop_visited exDBG.edges 0 Orientation.Forward [(1, Orientation.Forward)]
    [true, true] [Orientation.Forward, Orientation.Reverse] rfl]
  rw [dfsLoop_visited exDBG.edges 1 Orientation.Forward []
    [true, true] [Orientation.Forward, Orientation.Reverse] rfl]
  rw [dfsLoop_nil]

theorem exOuter :
    outer exDBG.edges [0, 1] [false, false] [Orientation.Forward, Orientation.Forward] =
      some ([true, true], [Orientation.Forward, Orientation.Reverse]) := by
  have houter : outer exDBG.edges [0, 1] [false, false]
      [Orientation.Forward, Orientation.Forward] =
      match dfsLoop exDBG.edges [(0, Orientation.Forward)] [false, false]
        [Orientation.Forward, Orientation.Forward] with
      | none => none
      | some (v, o) => outer exDBG.edges [1] v o := rfl
  rw [houter, exDfs]
  rfl

theorem exPick : pick_orientations exDBG = some [Orientation.Forward, Orientation.Reverse] := by
  have h : pick_orientations exDBG =
      (outer exDBG.edges [0, 1] [false, false]
        [Orientation.Forward, Orientation.Forward]).map Prod.snd := rfl
  rw [h, exOuter]
  rfl

/-- C8 as stated is false on the code: for k = 4 with unitigs AATCG and
TCGA the pipeline does NOT resolve orientations to [Forward, Forward].
TCGA is its own reverse complement, so the `last_rc` query of unitig 0 also
matches, a second edge (0→1, Forward, Reverse) is pushed after
(0→1, Forward, Forward), and the LIFO stack pops the Reverse proposal
first. -/
theorem end_to_end_example_cex :
    (build_dbg exUnitigs 4).bind pick_orientations ≠
      some [Orientation.Forward, Orientation.Forward] := by
  have h : (build_dbg exUnitigs 4).bind pick_orientations =
      pick_orientations exDBG := by
    rw [build_dbg_exUnitigs]
    rfl
  rw [h, exPick]
  decide

/-- C8 amended: for k = 4 with unitigs AATCG and TCGA, the pipeline
derives the edge (0→1, Forward, Forward) via the suffix (`last`) query of
unitig 0 — plus a second edge (0→1, Forward, Reverse) via the `last_rc`
query because TCGA is its own reverse complement — resolves orientations
to [Forward, Reverse] (the DFS pops the last-pushed proposal first), and
still emits both sequences unchanged, AATCG and TCGA, because the
reverse complement of TCGA is TCGA itself. -/
theorem end_to_end_example :
    build_dbg exUnitigs 4 = some exDBG ∧
    exDBG.edges[0]? =
      some [⟨0, 1, Orientation.Forward, Orientation.Forward⟩,
        ⟨0, 1, Orientation.Forward, Orientation.Reverse⟩] ∧
    pick_orientations exDBG = some [Orientation.Forward, Orientation.Reverse] ∧
    emit exDBG [Orientation.Forward, Orientation.Reverse] = some exUnitigs :=
  ⟨build_dbg_exUnitigs, rfl, exPick, by decide⟩

end UnitigFlipper
